import Mathlib

/-!
Shallow embedding of the connection-draining packet interception subsystem
of haproxy-docker-wrapper (netqueue.go), together with theorems checking
the natural-language specification against it.

The embedding covers:
* the kernel queue accounting reader (`ProcNetfilterQueue`, `ProcNetfilter`
  with `Update` and `Get`, and the `Fscanf`-style line format);
* the firewall rule manager (`NetfilterQueue.iptables`);
* the drain session control loop (`NetfilterQueue.loop`), modelled as the
  event trace emitted by the single loop goroutine, with Go `defer`
  semantics made explicit;
* the channel-level behaviour of `Capture` and `Release` (all three
  channels are buffered with capacity one);
* the background packet-verdict goroutine.
-/

/-! ## Source constants (netqueue.go) -/

def maxPacketsInQueue : Nat := 65536

def iptablesAddFlag : String := "-A"

def iptablesDeleteFlag : String := "-D"

def procNetfilterQueuePath : String := "/proc/net/netfilter/nfnetlink_queue"

/-! ## Queue accounting reader

`ProcNetfilter.Update` in the source scans `/proc/net/netfilter/nfnetlink_queue`
with `fmt.Fscanf` in a loop.  Each loop iteration first scans a line into the
local variables, then marks `seen[id]` and upserts `pn.queues[id]`, and only
afterwards checks the scan error: on `io.EOF` it breaks, so the final EOF
iteration re-upserts whatever values the local variables held after the last
successful scan (all zeros when the input had no records at all).  After the
scan, every key of the map not in `seen` is deleted.

The embedding takes the list of successfully parsed records as input (a
successful `Update` is exactly one whose every line parses), models the map
as an association list with distinct keys, and models the trailing EOF
iteration explicitly. -/

structure ProcNetfilterQueue where
  ID : Nat
  PortID : Nat
  Waiting : Nat
  CopyMode : Nat
  CopyRange : Nat
  QueueDropped : Nat
  UserDropped : Nat
  LastSeq : Nat
  One : Nat
deriving DecidableEq, Repr

/-- The value the scan variables hold before the first `Fscanf` call:
Go zero-initialises all nine locals. -/
def emptyQueueRec : ProcNetfilterQueue := ⟨0, 0, 0, 0, 0, 0, 0, 0, 0⟩

structure ProcNetfilter where
  queues : List (Nat × ProcNetfilterQueue)
deriving DecidableEq, Repr

/-- Go map assignment `pn.queues[id] = v` on the association-list model. -/
def upsert (m : List (Nat × ProcNetfilterQueue)) (k : Nat) (v : ProcNetfilterQueue) :
    List (Nat × ProcNetfilterQueue) :=
  (k, v) :: m.filter (fun p => p.1 != k)

/-- Boolean list membership for `Nat`, mirroring the `seen` set lookup. -/
def memB (l : List Nat) (a : Nat) : Bool := l.any (fun b => b == a)

/-- The scan loop of `ProcNetfilter.Update`: processes the parsed records in
order (scan, mark seen, upsert), and on EOF performs one final mark/upsert
with the leftover variable values before breaking. -/
def scanLoop : List ProcNetfilterQueue → ProcNetfilterQueue → List Nat →
    List (Nat × ProcNetfilterQueue) → List Nat × List (Nat × ProcNetfilterQueue)
  | [], vars, seen, qs => (vars.ID :: seen, upsert qs vars.ID vars)
  | r :: rest, _, seen, qs => scanLoop rest r (r.ID :: seen) (upsert qs r.ID r)

/-- `ProcNetfilter.Update` on an already-parsed input: run the scan loop
starting from zeroed locals, then evict every key not marked seen. -/
def ProcNetfilter.Update (input : List ProcNetfilterQueue) (pn : ProcNetfilter) :
    ProcNetfilter :=
  let res := scanLoop input emptyQueueRec [] pn.queues
  ⟨res.2.filter (fun p => memB res.1 p.1)⟩

/-- `ProcNetfilter.Get`: lookup by id under the read lock; the Go
`(value, found)` pair becomes an `Option`. -/
def ProcNetfilter.Get (pn : ProcNetfilter) (id : Nat) : Option ProcNetfilterQueue :=
  (pn.queues.find? (fun p => p.1 == id)).map (fun p => p.2)

/-- Split a character list on spaces, dropping empty fields: the whitespace
skipping `fmt.Fscanf` performs between two `%d` verbs. -/
def splitWsGo : List Char → List Char → List (List Char)
  | [], acc => if acc.isEmpty then [] else [acc.reverse]
  | c :: rest, acc =>
    if c = ' ' then
      if acc.isEmpty then splitWsGo rest [] else acc.reverse :: splitWsGo rest []
    else splitWsGo rest (c :: acc)

def splitWs (l : List Char) : List (List Char) := splitWsGo l []

/-- Decimal scanning of one `%d` field. -/
def natOfDigitsGo : List Char → Nat → Option Nat
  | [], n => some n
  | c :: rest, n => if c.isDigit then natOfDigitsGo rest (n * 10 + (c.toNat - 48)) else none

def natOfDigits (l : List Char) : Option Nat :=
  if l.isEmpty then none else natOfDigitsGo l 0

/-- One `Fscanf("%d %d %d %d %d %d %d %d %d\n", ...)` call on one line of the
accounting file: nine whitespace-separated unsigned integers scanned into the
nine local variables, in source order. -/
def parseQueueLine (s : String) : Option ProcNetfilterQueue :=
  match (splitWs s.data).mapM natOfDigits with
  | some [a, b, c, d, e, f, g, h, i] => some ⟨a, b, c, d, e, f, g, h, i⟩
  | _ => none

/-- Split input text into lines, dropping empty ones. -/
def splitLinesGo : List Char → List Char → List (List Char)
  | [], acc => if acc.isEmpty then [] else [acc.reverse]
  | c :: rest, acc =>
    if c = '\n' then
      if acc.isEmpty then splitLinesGo rest [] else acc.reverse :: splitLinesGo rest []
    else splitLinesGo rest (c :: acc)

/-- A whole successful refresh pass over textual input: every line parses,
then the scan/evict pass of `Update` runs. -/
def refreshString (s : String) (pn : ProcNetfilter) : Option ProcNetfilter :=
  ((splitLinesGo s.data []).mapM (fun l => parseQueueLine ⟨l⟩)).map
    (fun input => ProcNetfilter.Update input pn)

/-! ## Firewall rule manager and drain session controller

`NetfilterQueue.loop` runs in a single goroutine.  Every firewall command and
every write to `accepting` is executed by that goroutine, so the relative
order of those actions is the program order of the loop body; channel
operations only block the goroutine, they never reorder its actions.  The
loop is therefore embedded as the event trace it emits, one loop iteration
(one drain session) at a time.  The `exec.Command("iptables", ...).Run()`
exit status is abstracted by an oracle `ok : String -> String -> Bool`
(argument order: flag, destination address): `ok flag dest = false` models a
failing command, which the source turns into a panic. -/

/-- A `net.IP` as the loop uses it: whether `ip.To4() != nil`, and the text
`ip.String()` interpolated into the command line. -/
structure NetIP where
  isV4 : Bool
  str : String
deriving DecidableEq, Repr

structure NetfilterQueue where
  Number : Nat
  IPs : List NetIP
deriving DecidableEq, Repr

/-- Observable actions of `NetfilterQueue.iptables`. -/
inductive FwEvent
  | cmd (flag : String) (dest : String) (queueNum : Nat)
  | warnOnlyIPv4 (dest : String)
deriving DecidableEq, Repr

/-- The loop body of `NetfilterQueue.iptables`: for each address, skip it
with a warning when `To4()` is nil, otherwise execute the command; a failing
command panics (second component `some msg`) and processes no further
address. -/
def iptablesGo (ok : String → String → Bool) (flag : String) (qnum : Nat) :
    List NetIP → List FwEvent × Option String
  | [] => ([], none)
  | ip :: rest =>
    if ip.isV4 = false then
      let r := iptablesGo ok flag qnum rest
      (FwEvent.warnOnlyIPv4 ip.str :: r.1, r.2)
    else if ok flag ip.str then
      let r := iptablesGo ok flag qnum rest
      (FwEvent.cmd flag ip.str qnum :: r.1, r.2)
    else
      ([FwEvent.cmd flag ip.str qnum], some ("iptables failed: " ++ ip.str))

def NetfilterQueue.iptables (q : NetfilterQueue) (ok : String → String → Bool)
    (flag : String) : List FwEvent × Option String :=
  iptablesGo ok flag q.Number q.IPs

/-- Observable actions of the control loop goroutine, in program order. -/
inductive Ev
  | recvCapture
  | setAccepting (b : Bool)
  | fw (e : FwEvent)
  | sendCapturing
  | recvRelease
  | signalCond
deriving DecidableEq, Repr

/-- Statements of the anonymous drain function, enough to express its control
flow: a firewall call, a `defer` of a firewall call, an observable channel
action, and a ghost statement that optionally panics (to express the spec
sentence about errors raised between installation and removal; the source
body itself is `drainBodyStmts none`). -/
inductive Stmt
  | fwCall (flag : String)
  | deferFw (flag : String)
  | emit (e : Ev)
  | mayPanic (msg : Option String)
deriving DecidableEq, Repr

def orO (a b : Option String) : Option String :=
  match a with
  | some m => some m
  | none => b

/-- Run the deferred calls of a function frame, most recently deferred first;
Go keeps running the remaining deferred calls while panicking, and a panic
raised later supersedes an earlier one. -/
def runDefers (ok : String → String → Bool) (qnum : Nat) (ips : List NetIP) :
    List String → List Ev × Option String
  | [] => ([], none)
  | f :: rest =>
    let r := iptablesGo ok f qnum ips
    let r2 := runDefers ok qnum ips rest
    (r.1.map Ev.fw ++ r2.1, orO r2.2 r.2)

/-- Execute a statement list with Go function-frame semantics: `defer` pushes
onto the frame's defer stack; on normal return or on a panic the whole defer
stack runs; a panic skips the remaining statements. -/
def runStmts (ok : String → String → Bool) (qnum : Nat) (ips : List NetIP) :
    List Stmt → List String → List Ev × Option String
  | [], ds => runDefers ok qnum ips ds
  | Stmt.emit e :: rest, ds =>
    let r := runStmts ok qnum ips rest ds
    (e :: r.1, r.2)
  | Stmt.deferFw f :: rest, ds => runStmts ok qnum ips rest (f :: ds)
  | Stmt.fwCall f :: rest, ds =>
    let r := iptablesGo ok f qnum ips
    match r.2 with
    | some msg =>
      let d := runDefers ok qnum ips ds
      (r.1.map Ev.fw ++ d.1, orO d.2 (some msg))
    | none =>
      let r2 := runStmts ok qnum ips rest ds
      (r.1.map Ev.fw ++ r2.1, r2.2)
  | Stmt.mayPanic msg :: rest, ds =>
    match msg with
    | some m =>
      let d := runDefers ok qnum ips ds
      (d.1, orO d.2 (some m))
    | none => runStmts ok qnum ips rest ds

/-- The anonymous function inside the loop body, statement by statement:
install the rules, defer their removal, acknowledge on `capturing`, then
block on `release`.  `bp` optionally injects a panic between installation
and removal; the source body is `drainBodyStmts none`. -/
def drainBodyStmts (bp : Option String) : List Stmt :=
  [Stmt.fwCall iptablesAddFlag, Stmt.deferFw iptablesDeleteFlag,
   Stmt.emit Ev.sendCapturing, Stmt.mayPanic bp, Stmt.emit Ev.recvRelease]

/-- One iteration of the control loop: receive from `capture`, set
`accepting = false`, run the drain body, and (unless it panicked) set
`accepting = true` and signal the condition variable. -/
def sessionTrace (ok : String → String → Bool) (q : NetfilterQueue) (bp : Option String) :
    List Ev × Option String :=
  let body := runStmts ok q.Number q.IPs (drainBodyStmts bp) []
  match body.2 with
  | some m => (Ev.recvCapture :: Ev.setAccepting false :: body.1, some m)
  | none =>
    (Ev.recvCapture :: Ev.setAccepting false ::
      (body.1 ++ [Ev.setAccepting true, Ev.signalCond]), none)

/-- The trace of the first `n` drain sessions of the loop, each event tagged
with its session index; a panicking session ends the trace (the process
dies). -/
def loopIdxFrom (ok : String → String → Bool) (q : NetfilterQueue) (i : Nat) :
    Nat → List (Nat × Ev)
  | 0 => []
  | n + 1 =>
    let s := sessionTrace ok q none
    match s.2 with
    | some _ => s.1.map (fun e => (i, e))
    | none => s.1.map (fun e => (i, e)) ++ loopIdxFrom ok q (i + 1) n

/-- `NetfilterQueue.loop`, as an indexed trace: with an empty address list the
loop returns before creating the queue or processing any session. -/
def loopIdx (ok : String → String → Bool) (q : NetfilterQueue) (n : Nat) :
    List (Nat × Ev) :=
  if q.IPs.isEmpty then [] else loopIdxFrom ok q 0 n

/-! ## Event ordering -/

/-- `splitB p q tr = true` iff every event satisfying `p` occurs strictly
before every event satisfying `q`: from the first `q`-event on, no `p`-event
occurs. -/
def splitB {α : Type} (p q : α → Bool) : List α → Bool
  | [] => true
  | e :: rest =>
    if q e then !p e && rest.all (fun x => !p x) else splitB p q rest

def isInstallEv : Ev → Bool
  | Ev.fw (FwEvent.cmd f _ _) => f == iptablesAddFlag
  | _ => false

def isRemoveEv : Ev → Bool
  | Ev.fw (FwEvent.cmd f _ _) => f == iptablesDeleteFlag
  | _ => false

def isGateCloseEv : Ev → Bool
  | Ev.setAccepting b => !b
  | _ => false

def isAckEv : Ev → Bool
  | Ev.sendCapturing => true
  | _ => false

def isReleaseRecvEv : Ev → Bool
  | Ev.recvRelease => true
  | _ => false

/-! ## Concrete fixtures used by counterexamples and witnesses -/

/-- An oracle under which every firewall command succeeds. -/
def okAll : String → String → Bool := fun _ _ => true

def ip4a : NetIP := ⟨true, "10.0.0.1"⟩

def qOne : NetfilterQueue := ⟨100, [ip4a]⟩

/-! ## Channel-level behaviour of Capture and Release

`NewNetfilterQueue` creates `capture`, `capturing` and `release` as buffered
channels of capacity one, initially empty.  The channel state is the number
of tokens buffered in each.  A method returns `none` when it would block at
the current channel state (a blocked call is later unblocked by the loop;
this pointwise model does not chase that interleaving — the claims below
only concern the non-blocking cases and the empty-address early returns). -/

def chanCap : Nat := 1

structure Chans where
  capture : Nat
  capturing : Nat
  release : Nat
deriving DecidableEq, Repr

/-- The channel state right after `NewNetfilterQueue`: all buffers empty. -/
def newChans : Chans := ⟨0, 0, 0⟩

/-- `NetfilterQueue.Capture`: early return when no addresses are configured;
otherwise send on `capture` (blocks when its buffer is full) and then receive
from `capturing` (blocks until the loop acknowledges). -/
def NetfilterQueue.Capture (q : NetfilterQueue) (c : Chans) : Option Chans :=
  if q.IPs.isEmpty then some c
  else if chanCap ≤ c.capture then none
  else if c.capturing < 1 then none
  else some ⟨c.capture + 1, c.capturing - 1, c.release⟩

/-- `NetfilterQueue.Release`: early return when no addresses are configured;
otherwise send on `release`, which blocks only when its one-slot buffer is
already full. -/
def NetfilterQueue.Release (q : NetfilterQueue) (c : Chans) : Option Chans :=
  if q.IPs.isEmpty then some c
  else if chanCap ≤ c.release then none
  else some ⟨c.capture, c.capturing, c.release + 1⟩

/-- One iteration of the control loop against the channel state: consume a
capture token, run the drain body (acknowledging on `capturing` and consuming
a `release` token), reopen the gate.  Returns `none` if the iteration would
block on a channel or dies in a panic; otherwise the resulting channel state,
the iteration's events, and the value of `accepting` at its end.  The
iteration itself performs no `Release` call: the `release` token it consumes
must already be buffered. -/
def runSessionChans (ok : String → String → Bool) (q : NetfilterQueue) (c : Chans) :
    Option (Chans × List Ev × Bool) :=
  if q.IPs.isEmpty then none
  else if c.capture < 1 then none
  else
    let body := runStmts ok q.Number q.IPs (drainBodyStmts none) []
    if body.2.isSome then none
    else if chanCap ≤ c.capturing then none
    else if c.release < 1 then none
    else some (⟨c.capture - 1, c.capturing + 1, c.release - 1⟩,
      Ev.recvCapture :: Ev.setAccepting false ::
        (body.1 ++ [Ev.setAccepting true, Ev.signalCond]),
      true)

/-! ## The background packet-verdict goroutine

The goroutine selects between the next packet and a 100ms timeout.  On a
packet it first spins on `accept.Wait()` while `accepting` is false, then
unconditionally increments `count` and issues the accept verdict.  On a
timeout it logs and resets `count` when it is positive.  The input alphabet
records, for each packet, the value of `accepting` the goroutine observed on
arrival; the gate flip that ends a wait is the control task's doing and
orthogonal to the counting behaviour at stake here. -/

inductive PktIn
  | pkt (gateOpen : Bool)
  | tick
deriving DecidableEq, Repr

inductive PktOut
  | waitGate
  | verdictAccept
  | logDelayed (n : Nat)
deriving DecidableEq, Repr

/-- One `select` arm execution of the packet goroutine. -/
def packetStep (count : Nat) : PktIn → Nat × List PktOut
  | PktIn.pkt gateOpen =>
    (count + 1, (if gateOpen then [] else [PktOut.waitGate]) ++ [PktOut.verdictAccept])
  | PktIn.tick =>
    if count > 0 then (0, [PktOut.logDelayed count]) else (count, [])

/-- The packet goroutine over a finite input schedule. -/
def packetRun (count : Nat) : List PktIn → Nat × List PktOut
  | [] => (count, [])
  | e :: rest =>
    let r := packetStep count e
    let r2 := packetRun r.1 rest
    (r2.1, r.2 ++ r2.2)

/-- Total of the delayed-packet counts reported by log lines. -/
def sumLogs : List PktOut → Nat
  | [] => 0
  | PktOut.logDelayed n :: rest => n + sumLogs rest
  | _ :: rest => sumLogs rest

def isPkt : PktIn → Bool
  | PktIn.pkt _ => true
  | PktIn.tick => false

def isHeldPkt : PktIn → Bool
  | PktIn.pkt g => !g
  | PktIn.tick => false

/-! ## Supporting lemmas about the scan loop -/

theorem memB_iff (l : List Nat) (a : Nat) : memB l a = true ↔ a ∈ l := by
  simp [memB]

theorem memB_cons_self (l : List Nat) (a : Nat) : memB (a :: l) a = true := by
  simp [memB]

/-- The scan loop always ends with the EOF iteration: the returned seen list
is headed by the id of the leftover variable values, and the returned map is
headed by the corresponding upsert. -/
theorem scanLoop_eq (input : List ProcNetfilterQueue) (vars : ProcNetfilterQueue)
    (seen : List Nat) (qs : List (Nat × ProcNetfilterQueue)) :
    ∃ seenRest qsBase,
      scanLoop input vars seen qs =
        ((input.getLastD vars).ID :: seenRest,
          upsert qsBase (input.getLastD vars).ID (input.getLastD vars)) := by
  induction input generalizing vars seen qs with
  | nil => exact ⟨seen, qs, rfl⟩
  | cons r rest ih =>
    rw [List.getLastD_cons]
    exact ih r (r.ID :: seen) (upsert qs r.ID r)

/-- Membership in the seen list produced by the scan loop. -/
theorem mem_scanLoop_seen (input : List ProcNetfilterQueue) (vars : ProcNetfilterQueue)
    (seen : List Nat) (qs : List (Nat × ProcNetfilterQueue)) (a : Nat) :
    a ∈ (scanLoop input vars seen qs).1 ↔
      a = (input.getLastD vars).ID ∨ a ∈ input.map (fun r => r.ID) ∨ a ∈ seen := by
  induction input generalizing vars seen qs with
  | nil => simp [scanLoop]
  | cons r rest ih =>
    have hstep : scanLoop (r :: rest) vars seen qs =
        scanLoop rest r (r.ID :: seen) (upsert qs r.ID r) := rfl
    rw [hstep, ih, List.getLastD_cons]
    simp only [List.map_cons, List.mem_cons]
    tauto

/-- Lookup misses on the post-eviction map for any id not in the seen list. -/
theorem find?_filter_not_seen (m : List (Nat × ProcNetfilterQueue)) (seen : List Nat)
    (id : Nat) (h : id ∉ seen) :
    (m.filter (fun p => memB seen p.1)).find? (fun p => p.1 == id) = none := by
  induction m with
  | nil => rfl
  | cons q t ih =>
    have hstep : (q :: t).filter (fun p => memB seen p.1) =
        if memB seen q.1 then q :: t.filter (fun p => memB seen p.1)
        else t.filter (fun p => memB seen p.1) := List.filter_cons
    by_cases hk : memB seen q.1 = true
    · have hne : (q.1 == id) = false := by
        apply beq_eq_false_iff_ne.mpr
        intro he
        exact h ((memB_iff seen id).mp (he ▸ hk))
      rw [hstep, if_pos hk, List.find?_cons_of_neg _ (by rw [hne]; exact Bool.false_ne_true)]
      exact ih
    · rw [hstep, if_neg hk]
      exact ih

/-- Lookup after an update misses any id the scan pass did not mark seen. -/
theorem get_update_not_seen (input : List ProcNetfilterQueue) (pn : ProcNetfilter) (id : Nat)
    (h : id ∉ (scanLoop input emptyQueueRec [] pn.queues).1) :
    (ProcNetfilter.Update input pn).Get id = none := by
  show Option.map _ (List.find? (fun p => p.1 == id)
    ((scanLoop input emptyQueueRec [] pn.queues).2.filter
      (fun p => memB (scanLoop input emptyQueueRec [] pn.queues).1 p.1))) = none
  rw [find?_filter_not_seen _ _ _ h]
  rfl

/-- After any update, the leftover variable values of the final EOF iteration
are present in the snapshot under their id. -/
theorem get_update_getLastD (input : List ProcNetfilterQueue) (pn : ProcNetfilter) :
    (ProcNetfilter.Update input pn).Get (input.getLastD emptyQueueRec).ID =
      some (input.getLastD emptyQueueRec) := by
  obtain ⟨sr, qb, heq⟩ := scanLoop_eq input emptyQueueRec [] pn.queues
  unfold ProcNetfilter.Update ProcNetfilter.Get
  simp only [heq, upsert]
  rw [List.filter_cons]
  simp [memB_cons_self]

/-- C9: an update over an empty accounting input inserts a phantom record with
id 0 and all fields zero (`Get 0` finds it afterwards), and in general the
scan loop re-upserts, and marks as seen, the variable values left over from
the last successful parse before it checks the read error. -/
theorem claim9_eof_leftover_upsert :
    ∀ pn : ProcNetfilter,
      (ProcNetfilter.Update [] pn).Get 0 = some emptyQueueRec ∧
      ∀ input : List ProcNetfilterQueue,
        (ProcNetfilter.Update input pn).Get (input.getLastD emptyQueueRec).ID =
          some (input.getLastD emptyQueueRec) := by
  intro pn
  exact ⟨get_update_getLastD [] pn, fun input => get_update_getLastD input pn⟩

/-- C4: refreshing over the single accounting line
`"1 0 0 2 65531 0 0 1 1"` yields a snapshot where `Get 1` finds the record
with exactly the stated field values. -/
theorem claim4_single_line_snapshot :
    parseQueueLine "1 0 0 2 65531 0 0 1 1" = some ⟨1, 0, 0, 2, 65531, 0, 0, 1, 1⟩ ∧
    (refreshString "1 0 0 2 65531 0 0 1 1" ⟨[]⟩).map (fun pn => pn.Get 1) =
      some (some ⟨1, 0, 0, 2, 65531, 0, 0, 1, 1⟩) := by
  decide

/-- C3 counterexample: id 0 appears in the first refresh input and in no
record of the second (empty) refresh input, yet `Get 0` afterwards finds the
phantom all-zero record upserted by the EOF iteration, not the claimed
not-found. -/
theorem claim3_counterexample :
    (0 ∈ ([⟨0, 7, 0, 0, 0, 0, 0, 0, 0⟩] : List ProcNetfilterQueue).map (fun r => r.ID)) ∧
    (∀ r ∈ ([] : List ProcNetfilterQueue), r.ID ≠ 0) ∧
    (ProcNetfilter.Update [] (ProcNetfilter.Update [⟨0, 7, 0, 0, 0, 0, 0, 0, 0⟩] ⟨[]⟩)).Get 0 =
      some emptyQueueRec := by
  decide

/-- C3 (amended): if an id appears in the first refresh input, is absent from
every record of the second refresh input, and moreover the second input is
non-empty or the id is nonzero, then `Get` for that id after the second
refresh returns not-found. -/
theorem claim3_refresh_evicts_absent_id (pn : ProcNetfilter)
    (input1 input2 : List ProcNetfilterQueue) (id : Nat)
    (_h1 : id ∈ input1.map (fun r => r.ID))
    (h2 : ∀ r ∈ input2, r.ID ≠ id)
    (h3 : input2 ≠ [] ∨ id ≠ 0) :
    (ProcNetfilter.Update input2 (ProcNetfilter.Update input1 pn)).Get id = none := by
  have hnotseen :
      id ∉ (scanLoop input2 emptyQueueRec [] (ProcNetfilter.Update input1 pn).queues).1 := by
    rw [mem_scanLoop_seen]
    rintro (hlast | hmap | hnil)
    · cases input2 with
      | nil =>
        rcases h3 with h | h
        · exact h rfl
        · exact h hlast
      | cons r t =>
        have hmem : (r :: t).getLastD emptyQueueRec ∈ r :: t := by
          rw [List.getLastD_cons]
          exact List.getLastD_mem_cons t r
        exact h2 _ hmem hlast.symm
    · obtain ⟨r, hr, hid⟩ := List.mem_map.mp hmap
      exact h2 r hr hid
    · exact (List.not_mem_nil id) hnil
  exact get_update_not_seen input2 (ProcNetfilter.Update input1 pn) id hnotseen

/-- Witness for the amended C3 at a concrete input. -/
theorem claim3_refresh_evicts_absent_id_witness :
    (ProcNetfilter.Update [⟨2, 0, 0, 0, 0, 0, 0, 0, 0⟩]
      (ProcNetfilter.Update [⟨1, 0, 0, 2, 65531, 0, 0, 1, 1⟩] ⟨[]⟩)).Get 1 = none :=
  claim3_refresh_evicts_absent_id ⟨[]⟩ [⟨1, 0, 0, 2, 65531, 0, 0, 1, 1⟩]
    [⟨2, 0, 0, 0, 0, 0, 0, 0, 0⟩] 1 (by decide) (by decide) (by decide)


theorem splitB_cons {α : Type} (p q : α → Bool) (e : α) (rest : List α) :
    splitB p q (e :: rest) =
      if q e then !p e && rest.all (fun x => !p x) else splitB p q rest := rfl

theorem splitB_of_all_not_p {α : Type} (p q : α → Bool) (l : List α)
    (h : l.all (fun x => !p x) = true) : splitB p q l = true := by
  induction l with
  | nil => rfl
  | cons e rest ih =>
    rw [List.all_cons, Bool.and_eq_true] at h
    rw [splitB_cons]
    by_cases hq : q e = true
    · rw [if_pos hq, Bool.and_eq_true]
      exact ⟨h.1, h.2⟩
    · rw [if_neg hq]
      exact ih h.2

theorem splitB_append {α : Type} (p q : α → Bool) (A B : List α)
    (hA : A.all (fun x => !q x) = true) (hB : B.all (fun x => !p x) = true) :
    splitB p q (A ++ B) = true := by
  induction A with
  | nil => simpa using splitB_of_all_not_p p q B hB
  | cons e rest ih =>
    rw [List.all_cons, Bool.and_eq_true] at hA
    rw [List.cons_append, splitB_cons, if_neg]
    · exact ih hA.2
    · intro hq
      rw [hq] at hA
      exact Bool.false_ne_true hA.1

/-- Every event emitted by one `iptables` run is either the IPv6 warning or a
command with exactly the flag and queue number of that run. -/
theorem iptablesGo_all_events (ok : String → String → Bool) (f : String) (qnum : Nat)
    (ips : List NetIP) :
    ∀ e ∈ (iptablesGo ok f qnum ips).1,
      (∃ s, e = FwEvent.warnOnlyIPv4 s) ∨ ∃ s, e = FwEvent.cmd f s qnum := by
  induction ips with
  | nil => intro e he; exact absurd he (List.not_mem_nil e)
  | cons ip rest ih =>
    intro e he
    rw [iptablesGo] at he
    by_cases h4 : ip.isV4 = false
    · rw [if_pos h4] at he
      rcases List.mem_cons.mp he with rfl | hmem
      · exact Or.inl ⟨ip.str, rfl⟩
      · exact ih e hmem
    · rw [if_neg h4] at he
      by_cases hok : ok f ip.str = true
      · rw [if_pos hok] at he
        rcases List.mem_cons.mp he with rfl | hmem
        · exact Or.inr ⟨ip.str, rfl⟩
        · exact ih e hmem
      · rw [if_neg hok] at he
        rcases List.mem_cons.mp he with rfl | hmem
        · exact Or.inr ⟨ip.str, rfl⟩
        · exact absurd hmem (List.not_mem_nil e)

/-- Lift a pointwise fact about warning and command events to the whole
mapped event list of one `iptables` run. -/
theorem all_not_on_fwGo (ok : String → String → Bool) (f : String) (qnum : Nat)
    (ips : List NetIP) (p : Ev → Bool)
    (hw : ∀ s, p (Ev.fw (FwEvent.warnOnlyIPv4 s)) = false)
    (hc : ∀ s, p (Ev.fw (FwEvent.cmd f s qnum)) = false) :
    ((iptablesGo ok f qnum ips).1.map Ev.fw).all (fun x => !p x) = true := by
  refine List.all_eq_true.mpr ?_
  intro x hx
  obtain ⟨e, he, rfl⟩ := List.mem_map.mp hx
  rcases iptablesGo_all_events ok f qnum ips e he with ⟨s, rfl⟩ | ⟨s, rfl⟩
  · simp [hw s]
  · simp [hc s]

/-- Shape of the drain body run when installation succeeds and no panic is
injected: install events, the acknowledgment, the release receive, then the
deferred removal events. -/
theorem runStmts_drain_none (ok : String → String → Bool) (qnum : Nat) (ips : List NetIP)
    (h : (iptablesGo ok iptablesAddFlag qnum ips).2 = none) :
    runStmts ok qnum ips (drainBodyStmts none) [] =
      ((iptablesGo ok iptablesAddFlag qnum ips).1.map Ev.fw ++
        (Ev.sendCapturing :: Ev.recvRelease ::
          (iptablesGo ok iptablesDeleteFlag qnum ips).1.map Ev.fw),
       (iptablesGo ok iptablesDeleteFlag qnum ips).2) := by
  obtain ⟨evs, hA⟩ : ∃ evs, iptablesGo ok iptablesAddFlag qnum ips = (evs, none) :=
    ⟨(iptablesGo ok iptablesAddFlag qnum ips).1, by rw [← h]⟩
  simp only [drainBodyStmts, runStmts, hA, runDefers, orO, List.append_nil]

/-- Shape of the drain body run when installation succeeds and the body
panics between installation and removal: the deferred removal still runs. -/
theorem runStmts_drain_some (ok : String → String → Bool) (qnum : Nat) (ips : List NetIP)
    (m : String) (h : (iptablesGo ok iptablesAddFlag qnum ips).2 = none) :
    runStmts ok qnum ips (drainBodyStmts (some m)) [] =
      ((iptablesGo ok iptablesAddFlag qnum ips).1.map Ev.fw ++
        (Ev.sendCapturing ::
          (iptablesGo ok iptablesDeleteFlag qnum ips).1.map Ev.fw),
       orO (iptablesGo ok iptablesDeleteFlag qnum ips).2 (some m)) := by
  obtain ⟨evs, hA⟩ : ∃ evs, iptablesGo ok iptablesAddFlag qnum ips = (evs, none) :=
    ⟨(iptablesGo ok iptablesAddFlag qnum ips).1, by rw [← h]⟩
  simp only [drainBodyStmts, runStmts, hA, runDefers, orO, List.append_nil]

/-- C1 counterexample: in the session of a queue configured with the single
address 10.0.0.1 and queue number 100, the gate closes at trace position 1,
before the install command at position 2: it is false that the transition to
`accepting = false` happens only after the install command has run. -/
theorem claim1_counterexample :
    (sessionTrace okAll qOne none).1 =
      [Ev.recvCapture, Ev.setAccepting false,
       Ev.fw (FwEvent.cmd iptablesAddFlag "10.0.0.1" 100), Ev.sendCapturing,
       Ev.recvRelease, Ev.fw (FwEvent.cmd iptablesDeleteFlag "10.0.0.1" 100),
       Ev.setAccepting true, Ev.signalCond] ∧
    splitB isInstallEv isGateCloseEv (sessionTrace okAll qOne none).1 = false := by
  decide

/-- C1 (amended): in every drain session whose installation step succeeds,
the transition to `accepting = false` strictly precedes every install
command, and every install command strictly precedes the acknowledgment on
the `capturing` channel (hence precedes the return of `Capture`). -/
theorem claim1_gate_closes_before_install (ok : String → String → Bool)
    (q : NetfilterQueue)
    (h : (iptablesGo ok iptablesAddFlag q.Number q.IPs).2 = none) :
    splitB isGateCloseEv isInstallEv (sessionTrace ok q none).1 = true ∧
    splitB isInstallEv isAckEv (sessionTrace ok q none).1 = true := by
  have hbody := runStmts_drain_none ok q.Number q.IPs h
  have haddGate : ((iptablesGo ok iptablesAddFlag q.Number q.IPs).1.map Ev.fw).all
      (fun x => !isGateCloseEv x) = true :=
    all_not_on_fwGo _ _ _ _ _ (fun _ => rfl) (fun _ => rfl)
  have hdelGate : ((iptablesGo ok iptablesDeleteFlag q.Number q.IPs).1.map Ev.fw).all
      (fun x => !isGateCloseEv x) = true :=
    all_not_on_fwGo _ _ _ _ _ (fun _ => rfl) (fun _ => rfl)
  have haddAck : ((iptablesGo ok iptablesAddFlag q.Number q.IPs).1.map Ev.fw).all
      (fun x => !isAckEv x) = true :=
    all_not_on_fwGo _ _ _ _ _ (fun _ => rfl) (fun _ => rfl)
  have hdelInst : ((iptablesGo ok iptablesDeleteFlag q.Number q.IPs).1.map Ev.fw).all
      (fun x => !isInstallEv x) = true :=
    all_not_on_fwGo _ _ _ _ _ (fun _ => rfl) (fun _ => rfl)
  cases hd : (iptablesGo ok iptablesDeleteFlag q.Number q.IPs).2 with
  | none =>
    have htr : (sessionTrace ok q none).1 =
        ([Ev.recvCapture, Ev.setAccepting false] ++
          (iptablesGo ok iptablesAddFlag q.Number q.IPs).1.map Ev.fw) ++
        (Ev.sendCapturing :: Ev.recvRelease ::
          ((iptablesGo ok iptablesDeleteFlag q.Number q.IPs).1.map Ev.fw ++
            [Ev.setAccepting true, Ev.signalCond])) := by
      simp [sessionTrace, hbody, hd]
    constructor
    · rw [htr]
      rw [List.append_assoc]
      refine splitB_append _ _ _ _ (by decide) ?_
      simp only [List.all_append, List.all_cons, haddGate, hdelGate]
      decide
    · rw [htr]
      refine splitB_append _ _ _ _ ?_ ?_
      · simp only [List.all_append, haddAck]
        decide
      · simp only [List.all_append, List.all_cons, hdelInst]
        decide
  | some m =>
    have htr : (sessionTrace ok q none).1 =
        ([Ev.recvCapture, Ev.setAccepting false] ++
          (iptablesGo ok iptablesAddFlag q.Number q.IPs).1.map Ev.fw) ++
        (Ev.sendCapturing :: Ev.recvRelease ::
          (iptablesGo ok iptablesDeleteFlag q.Number q.IPs).1.map Ev.fw) := by
      simp [sessionTrace, hbody, hd]
    constructor
    · rw [htr]
      rw [List.append_assoc]
      refine splitB_append _ _ _ _ (by decide) ?_
      simp only [List.all_append, List.all_cons, haddGate, hdelGate]
      decide
    · rw [htr]
      refine splitB_append _ _ _ _ ?_ ?_
      · simp only [List.all_append, haddAck]
        decide
      · simp only [List.all_cons, hdelInst]
        decide

/-- Witness for the amended C1 at a concrete input. -/
theorem claim1_gate_closes_before_install_witness :
    splitB isGateCloseEv isInstallEv (sessionTrace okAll qOne none).1 = true ∧
    splitB isInstallEv isAckEv (sessionTrace okAll qOne none).1 = true :=
  claim1_gate_closes_before_install okAll qOne (by decide)

theorem pairwise_of_total {α : Type} {R : α → α → Prop} (h : ∀ a b, R a b) (l : List α) :
    l.Pairwise R := by
  induction l with
  | nil => exact List.Pairwise.nil
  | cons x rest ih => exact List.Pairwise.cons (fun y _ => h x y) ih

/-- Every event of the loop trace starting at session index `i` carries an
index at least `i`. -/
theorem loopIdxFrom_key_ge (ok : String → String → Bool) (q : NetfilterQueue) (n : Nat) :
    ∀ i : Nat, ∀ x ∈ loopIdxFrom ok q i n, i ≤ x.1 := by
  induction n with
  | zero => intro i x hx; exact absurd hx (List.not_mem_nil x)
  | succ n ih =>
    intro i x hx
    cases hs : (sessionTrace ok q none).2 with
    | some m =>
      simp only [loopIdxFrom, hs] at hx
      obtain ⟨e, _, rfl⟩ := List.mem_map.mp hx
      exact Nat.le_refl i
    | none =>
      simp only [loopIdxFrom, hs] at hx
      rcases List.mem_append.mp hx with hmem | hmem
      · obtain ⟨e, _, rfl⟩ := List.mem_map.mp hmem
        exact Nat.le_refl i
      · exact Nat.le_of_succ_le (ih (i + 1) x hmem)

/-- Session indices along the loop trace are nondecreasing. -/
theorem loopIdxFrom_pairwise (ok : String → String → Bool) (q : NetfilterQueue) (n : Nat) :
    ∀ i : Nat, (loopIdxFrom ok q i n).Pairwise (fun a b => a.1 ≤ b.1) := by
  induction n with
  | zero => intro i; exact List.Pairwise.nil
  | succ n ih =>
    intro i
    have hmap : ∀ l : List Ev, (l.map (fun e => (i, e))).Pairwise
        (fun a b : Nat × Ev => a.1 ≤ b.1) := by
      intro l
      exact List.pairwise_map.mpr (pairwise_of_total (fun _ _ => Nat.le_refl i) l)
    cases hs : (sessionTrace ok q none).2 with
    | some m =>
      simp only [loopIdxFrom, hs]
      exact hmap _
    | none =>
      simp only [loopIdxFrom, hs]
      refine List.pairwise_append.mpr ⟨hmap _, ih (i + 1), ?_⟩
      intro a ha b hb
      obtain ⟨e, _, rfl⟩ := List.mem_map.mp ha
      have hb1 := loopIdxFrom_key_ge ok q n (i + 1) b hb
      simp only []
      omega

/-- In any indexed trace with nondecreasing indices, every event of session
`i` occurs strictly before every event of session `j` when `i < j`. -/
theorem splitB_key_lt (p q : Ev → Bool) (i j : Nat) (hij : i < j) :
    ∀ tr : List (Nat × Ev), tr.Pairwise (fun a b => a.1 ≤ b.1) →
      splitB (fun x => x.1 == i && p x.2) (fun x => x.1 == j && q x.2) tr = true := by
  intro tr
  induction tr with
  | nil => intro _; rfl
  | cons x rest ih =>
    intro hpw
    rw [List.pairwise_cons] at hpw
    by_cases hx : x.1 ≤ i
    · have hq : (x.1 == j && q x.2) = false := by
        have hne : (x.1 == j) = false := beq_eq_false_iff_ne.mpr (by omega)
        rw [hne, Bool.false_and]
      rw [splitB_cons, if_neg (by rw [hq]; exact Bool.false_ne_true)]
      exact ih hpw.2
    · apply splitB_of_all_not_p
      rw [List.all_cons, Bool.and_eq_true]
      constructor
      · have hne : (x.1 == i) = false := beq_eq_false_iff_ne.mpr (by omega)
        simp [hne]
      · refine List.all_eq_true.mpr ?_
        intro y hy
        have hxy : x.1 ≤ y.1 := hpw.1 y hy
        have hne : (y.1 == i) = false := beq_eq_false_iff_ne.mpr (by omega)
        simp [hne]

/-- C5: drain sessions issued in sequence never overlap: every firewall
removal command of session `i` occurs strictly before every firewall install
command of any later session `j`.  The loop executes sessions one after
another in a single goroutine, so the indexed trace is the ground truth for
inter-session ordering. -/
theorem claim5_sessions_never_overlap (ok : String → String → Bool) (q : NetfilterQueue)
    (n i j : Nat) (hij : i < j) :
    splitB (fun x => x.1 == i && isRemoveEv x.2) (fun x => x.1 == j && isInstallEv x.2)
      (loopIdx ok q n) = true := by
  unfold loopIdx
  by_cases he : q.IPs.isEmpty = true
  · rw [if_pos he]; rfl
  · rw [if_neg he]
    exact splitB_key_lt isRemoveEv isInstallEv i j hij _ (loopIdxFrom_pairwise ok q n 0)

/-- Witness for C5 at a concrete two-session run, also checking that session
0 really emits a removal command and session 1 really emits an install
command (the ordering statement is not vacuous there). -/
theorem claim5_sessions_never_overlap_witness :
    splitB (fun x => x.1 == 0 && isRemoveEv x.2) (fun x => x.1 == 1 && isInstallEv x.2)
      (loopIdx okAll qOne 2) = true ∧
    (loopIdx okAll qOne 2).any (fun x => x.1 == 0 && isRemoveEv x.2) = true ∧
    (loopIdx okAll qOne 2).any (fun x => x.1 == 1 && isInstallEv x.2) = true :=
  ⟨claim5_sessions_never_overlap okAll qOne 2 0 1 (by decide), by decide, by decide⟩

/-- C7: once installation has succeeded the removal call is deferred, so the
removal commands appear in the session trace whatever happens afterwards —
in particular even when a panic is injected between installation and removal
(`bp = some msg`), because Go runs deferred calls while unwinding; and on the
normal path the release receive strictly precedes every removal command. -/
theorem claim7_removal_deferred (ok : String → String → Bool) (qnum : Nat)
    (ips : List NetIP) (bp : Option String)
    (h : (iptablesGo ok iptablesAddFlag qnum ips).2 = none) :
    (∀ e ∈ (iptablesGo ok iptablesDeleteFlag qnum ips).1,
        Ev.fw e ∈ (runStmts ok qnum ips (drainBodyStmts bp) []).1) ∧
    splitB isReleaseRecvEv isRemoveEv
      (runStmts ok qnum ips (drainBodyStmts none) []).1 = true := by
  have hnotrem : ((iptablesGo ok iptablesAddFlag qnum ips).1.map Ev.fw).all
      (fun x => !isRemoveEv x) = true :=
    all_not_on_fwGo _ _ _ _ _ (fun _ => rfl) (fun _ => rfl)
  have hnotrel : ((iptablesGo ok iptablesDeleteFlag qnum ips).1.map Ev.fw).all
      (fun x => !isReleaseRecvEv x) = true :=
    all_not_on_fwGo _ _ _ _ _ (fun _ => rfl) (fun _ => rfl)
  have hnone : (runStmts ok qnum ips (drainBodyStmts none) []).1 =
      (iptablesGo ok iptablesAddFlag qnum ips).1.map Ev.fw ++
        (Ev.sendCapturing :: Ev.recvRelease ::
          (iptablesGo ok iptablesDeleteFlag qnum ips).1.map Ev.fw) := by
    rw [runStmts_drain_none ok qnum ips h]
  constructor
  · intro e he
    cases bp with
    | none =>
      rw [hnone]
      exact List.mem_append_right _
        (List.mem_cons_of_mem _ (List.mem_cons_of_mem _ (List.mem_map_of_mem Ev.fw he)))
    | some m =>
      have hsome : (runStmts ok qnum ips (drainBodyStmts (some m)) []).1 =
          (iptablesGo ok iptablesAddFlag qnum ips).1.map Ev.fw ++
            (Ev.sendCapturing ::
              (iptablesGo ok iptablesDeleteFlag qnum ips).1.map Ev.fw) := by
        rw [runStmts_drain_some ok qnum ips m h]
      rw [hsome]
      exact List.mem_append_right _
        (List.mem_cons_of_mem _ (List.mem_map_of_mem Ev.fw he))
  · rw [hnone]
    have hassoc : (iptablesGo ok iptablesAddFlag qnum ips).1.map Ev.fw ++
        (Ev.sendCapturing :: Ev.recvRelease ::
          (iptablesGo ok iptablesDeleteFlag qnum ips).1.map Ev.fw) =
        ((iptablesGo ok iptablesAddFlag qnum ips).1.map Ev.fw ++
          [Ev.sendCapturing, Ev.recvRelease]) ++
          (iptablesGo ok iptablesDeleteFlag qnum ips).1.map Ev.fw := by
      rw [List.append_assoc]
      rfl
    rw [hassoc]
    refine splitB_append _ _ _ _ ?_ hnotrel
    simp only [List.all_append, hnotrem]
    decide

/-- Witness for C7 at a concrete input, with a panic injected between
installation and removal. -/
theorem claim7_removal_deferred_witness :
    (∀ e ∈ (iptablesGo okAll iptablesDeleteFlag 100 [ip4a]).1,
        Ev.fw e ∈ (runStmts okAll 100 [ip4a] (drainBodyStmts (some "boom")) []).1) ∧
    splitB isReleaseRecvEv isRemoveEv
      (runStmts okAll 100 [ip4a] (drainBodyStmts none) []).1 = true :=
  claim7_removal_deferred okAll 100 [ip4a] (some "boom") (by decide)

theorem bool_true_of_not_false {b : Bool} (h : ¬ b = false) : b = true := by
  cases b
  · exact absurd rfl h
  · rfl

/-- C8: (1) if any IPv4 address in the list has a failing firewall command,
the run aborts with a panic; (2) if every IPv4 command succeeds the run is
not an error even when IPv6 addresses are present, and every IPv6 address
produces the logged warning; (3) every command executed carries the run's
flag and queue number and targets the string of an IPv4 address — no rule is
ever installed for an IPv6 address.  This holds for both the install and the
delete flag, which are just the `flag` argument. -/
theorem claim8_fatal_failure_ipv6_skip (ok : String → String → Bool) (flag : String)
    (qnum : Nat) (ips : List NetIP) :
    ((∃ ip ∈ ips, ip.isV4 = true ∧ ok flag ip.str = false) →
        (iptablesGo ok flag qnum ips).2.isSome = true) ∧
    ((∀ ip ∈ ips, ip.isV4 = true → ok flag ip.str = true) →
        (iptablesGo ok flag qnum ips).2 = none ∧
        ∀ ip ∈ ips, ip.isV4 = false →
          FwEvent.warnOnlyIPv4 ip.str ∈ (iptablesGo ok flag qnum ips).1) ∧
    (∀ f2 dest k, FwEvent.cmd f2 dest k ∈ (iptablesGo ok flag qnum ips).1 →
        f2 = flag ∧ k = qnum ∧ ∃ ip ∈ ips, ip.isV4 = true ∧ ip.str = dest) := by
  induction ips with
  | nil =>
    refine ⟨?_, ?_, ?_⟩
    · rintro ⟨ip, hip, _⟩
      exact absurd hip (List.not_mem_nil ip)
    · intro _
      exact ⟨rfl, fun ip hip _ => absurd hip (List.not_mem_nil ip)⟩
    · intro f2 dest k hmem
      exact absurd hmem (List.not_mem_nil _)
  | cons a rest ih =>
    refine ⟨?_, ?_, ?_⟩
    · rintro ⟨ip, hip, h4, hbad⟩
      by_cases ha4 : a.isV4 = false
      · rw [iptablesGo, if_pos ha4]
        show (iptablesGo ok flag qnum rest).2.isSome = true
        apply ih.1
        rcases List.mem_cons.mp hip with rfl | hmem
        · rw [ha4] at h4
          exact absurd h4 Bool.false_ne_true
        · exact ⟨ip, hmem, h4, hbad⟩
      · by_cases hok : ok flag a.str = true
        · rw [iptablesGo, if_neg ha4, if_pos hok]
          show (iptablesGo ok flag qnum rest).2.isSome = true
          apply ih.1
          rcases List.mem_cons.mp hip with rfl | hmem
          · rw [hok] at hbad
            exact absurd hbad.symm Bool.false_ne_true
          · exact ⟨ip, hmem, h4, hbad⟩
        · rw [iptablesGo, if_neg ha4, if_neg hok]
          rfl
    · intro hall
      have hrest := ih.2.1 (fun ip hip h4 => hall ip (List.mem_cons_of_mem a hip) h4)
      by_cases ha4 : a.isV4 = false
      · rw [iptablesGo, if_pos ha4]
        refine ⟨hrest.1, ?_⟩
        intro ip hip h4
        rcases List.mem_cons.mp hip with rfl | hmem
        · exact List.mem_cons_self _ _
        · exact List.mem_cons_of_mem _ (hrest.2 ip hmem h4)
      · have hok : ok flag a.str = true :=
          hall a (List.mem_cons_self a rest) (bool_true_of_not_false ha4)
        rw [iptablesGo, if_neg ha4, if_pos hok]
        refine ⟨hrest.1, ?_⟩
        intro ip hip h4
        rcases List.mem_cons.mp hip with rfl | hmem
        · exact absurd h4 ha4
        · exact List.mem_cons_of_mem _ (hrest.2 ip hmem h4)
    · intro f2 dest k hmem
      by_cases ha4 : a.isV4 = false
      · rw [iptablesGo, if_pos ha4] at hmem
        rcases List.mem_cons.mp hmem with heq | hmem2
        · exact FwEvent.noConfusion heq
        · obtain ⟨h1, h2, ip, hip, hprops⟩ := ih.2.2 f2 dest k hmem2
          exact ⟨h1, h2, ip, List.mem_cons_of_mem a hip, hprops⟩
      · by_cases hok : ok flag a.str = true
        · rw [iptablesGo, if_neg ha4, if_pos hok] at hmem
          rcases List.mem_cons.mp hmem with heq | hmem2
          · injection heq with hf hs hk
            exact ⟨hf, hk,
              a, List.mem_cons_self a rest, bool_true_of_not_false ha4, hs.symm⟩
          · obtain ⟨h1, h2, ip, hip, hprops⟩ := ih.2.2 f2 dest k hmem2
            exact ⟨h1, h2, ip, List.mem_cons_of_mem a hip, hprops⟩
        · rw [iptablesGo, if_neg ha4, if_neg hok] at hmem
          rcases List.mem_cons.mp hmem with heq | hmem2
          · injection heq with hf hs hk
            exact ⟨hf, hk,
              a, List.mem_cons_self a rest, bool_true_of_not_false ha4, hs.symm⟩
          · exact absurd hmem2 (List.not_mem_nil _)

/-- Witness for C8 at concrete inputs: a failing command aborts, an IPv6
address is warned about and skipped with no error, and every executed
command targets an IPv4 address. -/
theorem claim8_fatal_failure_ipv6_skip_witness :
    (iptablesGo (fun _ _ => false) iptablesAddFlag 100 [ip4a]).2.isSome = true ∧
    ((iptablesGo okAll iptablesAddFlag 100 [⟨false, "::1"⟩, ip4a]).2 = none ∧
      ∀ ip ∈ ([⟨false, "::1"⟩, ip4a] : List NetIP), ip.isV4 = false →
        FwEvent.warnOnlyIPv4 ip.str ∈
          (iptablesGo okAll iptablesAddFlag 100 [⟨false, "::1"⟩, ip4a]).1) ∧
    (∀ f2 dest k, FwEvent.cmd f2 dest k ∈
          (iptablesGo okAll iptablesAddFlag 100 [⟨false, "::1"⟩, ip4a]).1 →
        f2 = iptablesAddFlag ∧ k = 100 ∧
          ∃ ip ∈ ([⟨false, "::1"⟩, ip4a] : List NetIP), ip.isV4 = true ∧ ip.str = dest) :=
  ⟨(claim8_fatal_failure_ipv6_skip (fun _ _ => false) iptablesAddFlag 100 [ip4a]).1
      ⟨ip4a, by decide, by decide, rfl⟩,
    (claim8_fatal_failure_ipv6_skip okAll iptablesAddFlag 100 [⟨false, "::1"⟩, ip4a]).2.1
      (by decide),
    (claim8_fatal_failure_ipv6_skip okAll iptablesAddFlag 100 [⟨false, "::1"⟩, ip4a]).2.2⟩

/-- C6: with an empty address set, `Capture` and `Release` return immediately
in every channel state, leave the channel state untouched, and the loop emits
no event whatsoever — in particular no firewall command ever runs. -/
theorem claim6_empty_addresses_noop (qn : Nat) (c : Chans) (ok : String → String → Bool)
    (n : Nat) :
    NetfilterQueue.Capture ⟨qn, []⟩ c = some c ∧
    NetfilterQueue.Release ⟨qn, []⟩ c = some c ∧
    loopIdx ok ⟨qn, []⟩ n = [] := by
  exact ⟨rfl, rfl, rfl⟩

/-- C10: a `Release` issued while no drain session is active (empty `release`
buffer) never blocks and leaves a buffered token; the next loop iteration
then completes against that stale token alone — consuming it, removing the
firewall rules of that session and reopening the gate — with no further
`Release` call. -/
theorem claim10_stale_release_token (ok : String → String → Bool) (q : NetfilterQueue)
    (c : Chans) (hne : q.IPs ≠ []) (hrel : c.release = 0) :
    NetfilterQueue.Release q c = some ⟨c.capture, c.capturing, 1⟩ ∧
    (∀ c2 : Chans, c2.capture = 1 → c2.capturing = 0 → c2.release = 1 →
      (iptablesGo ok iptablesAddFlag q.Number q.IPs).2 = none →
      (iptablesGo ok iptablesDeleteFlag q.Number q.IPs).2 = none →
      ∃ tr, runSessionChans ok q c2 = some (⟨0, 1, 0⟩, tr, true) ∧
        ∀ e ∈ (iptablesGo ok iptablesDeleteFlag q.Number q.IPs).1, Ev.fw e ∈ tr) := by
  have hie : q.IPs.isEmpty = false := by
    cases hq : q.IPs with
    | nil => exact absurd hq hne
    | cons a t => rfl
  constructor
  · unfold NetfilterQueue.Release
    rw [hie]
    simp [chanCap, hrel]
  · intro c2 h1 h2 h3 hA hD
    have hbody := runStmts_drain_none ok q.Number q.IPs hA
    refine ⟨Ev.recvCapture :: Ev.setAccepting false ::
      (((iptablesGo ok iptablesAddFlag q.Number q.IPs).1.map Ev.fw ++
        (Ev.sendCapturing :: Ev.recvRelease ::
          (iptablesGo ok iptablesDeleteFlag q.Number q.IPs).1.map Ev.fw)) ++
        [Ev.setAccepting true, Ev.signalCond]), ?_, ?_⟩
    · unfold runSessionChans
      rw [hie]
      simp [h1, h2, h3, hbody, hD, chanCap]
    · intro e he
      refine List.mem_cons_of_mem _ (List.mem_cons_of_mem _ ?_)
      refine List.mem_append_left _ ?_
      exact List.mem_append_right _
        (List.mem_cons_of_mem _ (List.mem_cons_of_mem _ (List.mem_map_of_mem Ev.fw he)))

/-- Witness for C10 at a concrete input. -/
theorem claim10_stale_release_token_witness :
    NetfilterQueue.Release qOne newChans = some ⟨0, 0, 1⟩ ∧
    (∃ tr, runSessionChans okAll qOne ⟨1, 0, 1⟩ = some (⟨0, 1, 0⟩, tr, true) ∧
      ∀ e ∈ (iptablesGo okAll iptablesDeleteFlag qOne.Number qOne.IPs).1, Ev.fw e ∈ tr) := by
  have h := claim10_stale_release_token okAll qOne newChans (by decide) rfl
  exact ⟨h.1, h.2 ⟨1, 0, 1⟩ rfl rfl rfl (by decide) (by decide)⟩

/-- C2 counterexample: a single packet processed with the gate open — which
the claim says must not be counted or reported — increments the counter, and
the following timeout tick logs it in the delayed line as 1 packet. -/
theorem claim2_counterexample :
    packetRun 0 [PktIn.pkt true] = (1, [PktOut.verdictAccept]) ∧
    packetRun 0 [PktIn.pkt true, PktIn.tick] =
      (0, [PktOut.verdictAccept, PktOut.logDelayed 1]) := by
  decide

/-- C2 (amended): every packet receives exactly one accept verdict; only the
packets that found the gate closed suspend on the condition wait before their
verdict; but the counter is incremented for every processed packet, gate open
or not: the totals reported by the delayed log lines plus the residual count
account for every packet processed, not only the held ones. -/
theorem claim2_counter_counts_all_packets (count : Nat) (ins : List PktIn) :
    (packetRun count ins).2.countP (fun e => e == PktOut.verdictAccept) =
      ins.countP isPkt ∧
    (packetRun count ins).2.countP (fun e => e == PktOut.waitGate) =
      ins.countP isHeldPkt ∧
    sumLogs (packetRun count ins).2 + (packetRun count ins).1 =
      count + ins.countP isPkt := by
  induction ins generalizing count with
  | nil => simp [packetRun, sumLogs]
  | cons e rest ih =>
    obtain ⟨ih1, ih2, ih3⟩ := ih (packetStep count e).1
    have hrun : packetRun count (e :: rest) =
        ((packetRun (packetStep count e).1 rest).1,
          (packetStep count e).2 ++ (packetRun (packetStep count e).1 rest).2) := rfl
    have hsum : ∀ a b : List PktOut, sumLogs (a ++ b) = sumLogs a + sumLogs b := by
      intro a b
      induction a with
      | nil => simp [sumLogs]
      | cons x t iha =>
        cases x <;> simp [sumLogs, iha] <;> omega
    cases e with
    | pkt g =>
      cases g <;>
        · simp_all [hrun, packetStep, List.countP_cons, List.countP_append, hsum,
            sumLogs, isPkt, isHeldPkt]
          omega
    | tick =>
      by_cases hc : count > 0
      · have hstep : packetStep count PktIn.tick = (0, [PktOut.logDelayed count]) := by
          simp [packetStep, hc]
        have hrun2 : packetRun count (PktIn.tick :: rest) =
            ((packetRun 0 rest).1, PktOut.logDelayed count :: (packetRun 0 rest).2) := by
          rw [hrun, hstep]
          rfl
        obtain ⟨j1, j2, j3⟩ := ih 0
        rw [hrun2]
        refine ⟨?_, ?_, ?_⟩
        · simpa [List.countP_cons, isPkt] using j1
        · simpa [List.countP_cons, isHeldPkt] using j2
        · simp only [sumLogs, List.countP_cons]
          simp [isPkt]
          omega
      · simp_all [hrun, packetStep, hc, List.countP_cons, List.countP_append, hsum,
          sumLogs, isPkt, isHeldPkt]
